import Mathlib

/-!
# NullComm EncryptedMessenger — verification of the specification against the source

Shallow embedding of the NullComm encrypted-messenger repository:

* the envelope cipher wrappers of `app/src/utils/crypto.ts`
  (`deriveKeyFromAddress`, `encryptMessage`, `decryptMessage`,
  `normalizeDecryptedAddress`, `hexToBytes`, `bytesToBase64`, `base64ToBytes`);
* the Solidity `EncryptedMessenger` contract (`sendMessage`,
  `getMessageCount`, `getMessageAt`) together with a model of the FHE
  confidential key store it delegates to;
* the decrypt-session request construction of
  `app/src/components/MessageComposer.tsx` (`handleDecrypt`).

External primitives that the repository merely calls (SHA-256, the AES-GCM
AEAD, `ethers.getAddress`, the FHE engine's access-control list and
user-decryption oracle) are modelled explicitly; each such definition carries
a doc comment saying what it stands for.  Cryptographic security properties
(authenticity of the AEAD, collision-freedom of the key-derivation hash)
are never assumed globally: where a theorem needs them they appear as
hypotheses, discharged at concrete instances by the witnesses.

Strings of the TypeScript source are embedded as `List Char`, byte sequences
as `List Nat` with every byte `< 256`.
-/

namespace NullComm

/-! ## SHA-256

The repository derives envelope keys with `createHash("sha256")` /
`crypto.subtle.digest("SHA-256", ·)`.  The primitive is external to the
repository, so it is implemented here directly from FIPS 180-4 so that the
embedding of `deriveKeyFromAddress` is executable and faithful. -/

/-- Addition of 32-bit words modulo `2^32`. -/
def add32 (a b : Nat) : Nat := (a + b) % 4294967296

/-- Right rotation of a 32-bit word by `n` places. -/
def rotr32 (n x : Nat) : Nat := (x / 2 ^ n + x % 2 ^ n * 2 ^ (32 - n)) % 4294967296

/-- Logical right shift of a 32-bit word. -/
def shr32 (n x : Nat) : Nat := x / 2 ^ n

/-- SHA-256 small sigma 0. -/
def ssig0 (x : Nat) : Nat := rotr32 7 x ^^^ rotr32 18 x ^^^ shr32 3 x

/-- SHA-256 small sigma 1. -/
def ssig1 (x : Nat) : Nat := rotr32 17 x ^^^ rotr32 19 x ^^^ shr32 10 x

/-- SHA-256 big sigma 0. -/
def bsig0 (x : Nat) : Nat := rotr32 2 x ^^^ rotr32 13 x ^^^ rotr32 22 x

/-- SHA-256 big sigma 1. -/
def bsig1 (x : Nat) : Nat := rotr32 6 x ^^^ rotr32 11 x ^^^ rotr32 25 x

/-- SHA-256 choice function (bitwise complement taken inside 32 bits). -/
def chW (x y z : Nat) : Nat := (x &&& y) ^^^ ((x ^^^ 4294967295) &&& z)

/-- SHA-256 majority function. -/
def majW (x y z : Nat) : Nat := (x &&& y) ^^^ (x &&& z) ^^^ (y &&& z)

/-- The 64 SHA-256 round constants. -/
def shaK : List Nat :=
  [1116352408, 1899447441, 3049323471, 3921009573, 961987163,
   1508970993, 2453635748, 2870763221, 3624381080, 310598401,
   607225278, 1426881987, 1925078388, 2162078206, 2614888103,
   3248222580, 3835390401, 4022224774, 264347078, 604807628,
   770255983, 1249150122, 1555081692, 1996064986, 2554220882,
   2821834349, 2952996808, 3210313671, 3336571891, 3584528711,
   113926993, 338241895, 666307205, 773529912, 1294757372,
   1396182291, 1695183700, 1986661051, 2177026350, 2456956037,
   2730485921, 2820302411, 3259730800, 3345764771, 3516065817,
   3600352804, 4094571909, 275423344, 430227734, 506948616,
   659060556, 883997877, 958139571, 1322822218, 1537002063,
   1747873779, 1955562222, 2024104815, 2227730452, 2361852424,
   2428436474, 2756734187, 3204031479, 3329325298]

/-- The eight 32-bit words of a SHA-256 chaining value. -/
structure Hash8 where
  h0 : Nat
  h1 : Nat
  h2 : Nat
  h3 : Nat
  h4 : Nat
  h5 : Nat
  h6 : Nat
  h7 : Nat
deriving DecidableEq

/-- The SHA-256 initial chaining value. -/
def shaInit : Hash8 :=
  ⟨1779033703, 3144134277, 1013904242, 2773480762,
   1359893119, 2600822924, 528734635, 1541459225⟩

/-- Working registers of the SHA-256 compression loop. -/
structure Regs where
  a : Nat
  b : Nat
  c : Nat
  d : Nat
  e : Nat
  f : Nat
  g : Nat
  h : Nat

/-- One SHA-256 round: consume one (schedule word, constant) pair. -/
def shaRound (r : Regs) (wk : Nat × Nat) : Regs :=
  let t1 := (r.h + bsig1 r.e + chW r.e r.f r.g + wk.2 + wk.1) % 4294967296
  let t2 := (bsig0 r.a + majW r.a r.b r.c) % 4294967296
  ⟨(t1 + t2) % 4294967296, r.a, r.b, r.c, (r.d + t1) % 4294967296, r.e, r.f, r.g⟩

/-- Group a byte list into big-endian 32-bit words, four bytes at a time. -/
def bytesToWords : List Nat → List Nat
  | b1 :: b2 :: b3 :: b4 :: rest =>
      (b1 * 16777216 + b2 * 65536 + b3 * 256 + b4) :: bytesToWords rest
  | _ => []

/-- Extend the 16 block words to the 64-entry message schedule.  The
accumulator holds the schedule words most-recent-first. -/
def extendSchedule : Nat → List Nat → List Nat
  | 0, acc => acc.reverse
  | n + 1, acc =>
      let w2 := acc.getD 1 0
      let w7 := acc.getD 6 0
      let w15 := acc.getD 14 0
      let w16 := acc.getD 15 0
      extendSchedule n (((w16 + ssig0 w15 + w7 + ssig1 w2) % 4294967296) :: acc)

/-- The full 64-word message schedule of one 64-byte block. -/
def schedule (block : List Nat) : List Nat :=
  extendSchedule 48 (bytesToWords block).reverse

/-- SHA-256 compression: one 64-byte block folded into the chaining value. -/
def shaCompress (hv : Hash8) (block : List Nat) : Hash8 :=
  let r : Regs := ⟨hv.h0, hv.h1, hv.h2, hv.h3, hv.h4, hv.h5, hv.h6, hv.h7⟩
  let r := ((schedule block).zip shaK).foldl shaRound r
  ⟨add32 hv.h0 r.a, add32 hv.h1 r.b, add32 hv.h2 r.c, add32 hv.h3 r.d,
   add32 hv.h4 r.e, add32 hv.h5 r.f, add32 hv.h6 r.g, add32 hv.h7 r.h⟩

/-- Big-endian byte expansion of a value into `k` bytes. -/
def natToBytesBE : Nat → Nat → List Nat
  | 0, _ => []
  | k + 1, v => natToBytesBE k (v / 256) ++ [v % 256]

/-- SHA-256 padding: append `0x80`, zeros to 56 mod 64, and the 64-bit
big-endian bit length. -/
def shaPad (msg : List Nat) : List Nat :=
  let L := msg.length
  let z := (55 + 64 - L % 64) % 64
  msg ++ 128 :: List.replicate z 0 ++ natToBytesBE 8 (L * 8)

/-- Fold the compression function over the blocks of a padded message;
the fuel argument counts the remaining 64-byte blocks. -/
def shaBlocks : Nat → Hash8 → List Nat → Hash8
  | 0, hv, _ => hv
  | n + 1, hv, bytes => shaBlocks n (shaCompress hv (bytes.take 64)) (bytes.drop 64)

/-- Big-endian bytes of one 32-bit word. -/
def wordBytes (w : Nat) : List Nat :=
  [w / 16777216 % 256, w / 65536 % 256, w / 256 % 256, w % 256]

/-- Serialize a chaining value as the 32 digest bytes. -/
def digestBytes (hv : Hash8) : List Nat :=
  wordBytes hv.h0 ++ wordBytes hv.h1 ++ wordBytes hv.h2 ++ wordBytes hv.h3 ++
  wordBytes hv.h4 ++ wordBytes hv.h5 ++ wordBytes hv.h6 ++ wordBytes hv.h7

/-- SHA-256 of a byte sequence (FIPS 180-4).  Models the external
`createHash("sha256")` / `crypto.subtle.digest` primitive the repository
calls; it is not source code of the repository itself. -/
def sha256 (msg : List Nat) : List Nat :=
  let padded := shaPad msg
  digestBytes (shaBlocks (padded.length / 64) shaInit padded)

/-! ## Hex digits and Ethereum addresses

`crypto.ts` parses the hex digits of a checksummed address with
`parseInt(·, 16)` (`hexToBytes`) and normalizes addresses with
`ethers.getAddress`.  The latter is external library code, so it is
modelled below. -/

/-- Numeric value of a hex digit, as `parseInt(·, 16)` assigns it
(non-digits, which never reach the parser in the embedded paths, map to 0). -/
def hexVal (c : Char) : Nat :=
  if '0' ≤ c ∧ c ≤ '9' then c.toNat - 48
  else if 'a' ≤ c ∧ c ≤ 'f' then c.toNat - 87
  else if 'A' ≤ c ∧ c ≤ 'F' then c.toNat - 55
  else 0

/-- Whether a character is a hex digit (either case). -/
def isHexDigitChar (c : Char) : Bool :=
  decide (c ∈ ['0','1','2','3','4'] ++ ['5','6','7','8','9'] ++
    ['a','b','c','d','e','f'] ++ ['A','B','C','D','E','F'])

/-- Lower-case a hex digit; other characters pass through. -/
def toLowerHex (c : Char) : Char :=
  if c = 'A' then 'a' else if c = 'B' then 'b' else if c = 'C' then 'c'
  else if c = 'D' then 'd' else if c = 'E' then 'e' else if c = 'F' then 'f'
  else c

/-- Pair up hex digits into bytes, as the loop of `hexToBytes` in
`crypto.ts` does (`bytes[i] = parseInt(hex.slice(i*2, i*2+2), 16)`). -/
def hexPairsToBytes : List Char → List Nat
  | [] => []
  | [_] => []
  | c0 :: c1 :: rest => (16 * hexVal c0 + hexVal c1) :: hexPairsToBytes rest

/-- The `hexToBytes` of `crypto.ts`: an odd-length string is first padded
with a leading `'0'`. -/
def hexToBytes (hex : List Char) : List Nat :=
  if hex.length % 2 = 0 then hexPairsToBytes hex else hexPairsToBytes ('0' :: hex)

/-- Big-endian base-16 value of a digit string. -/
def digitsVal (ds : List Char) : Nat :=
  ds.foldl (fun a c => 16 * a + hexVal c) 0

/-- Modelled from the spec: `ethers.getAddress` — external library code, not
part of this repository.  It accepts a `0x`-prefixed 40-hex-digit string and
returns the address in a canonical form; the EIP-55 checksum casing it applies
depends on keccak-256 and is abstracted here to the lower-case canonical form,
which is observationally equivalent for every embedded use, since each
downstream consumer parses the digits case-insensitively (`hexVal`). -/
def ethGetAddress (s : List Char) : Option (List Char) :=
  match s with
  | '0' :: 'x' :: digits =>
      if digits.length = 40 ∧ digits.all isHexDigitChar then
        some ('0' :: 'x' :: digits.map toLowerHex)
      else none
  | _ => none

/-- The `deriveKeyFromAddress` of `crypto.ts` / `tasks/EncryptedMessenger.ts`:
normalize the address with `getAddress`, strip the `0x` prefix, parse the raw
bytes, and hash them with SHA-256.  `none` models the exception `getAddress`
throws on an invalid address. -/
def deriveKeyFromAddress (address : List Char) : Option (List Nat) :=
  (ethGetAddress address).map fun normalized => sha256 (hexToBytes (normalized.drop 2))

/-! ## Base64

`crypto.ts` encodes with `btoa` over a binary string and decodes with
`atob`; both are external browser primitives, modelled here byte-exactly
(standard base64 alphabet, `=` padding, decode failure on a character
outside the alphabet or an impossible length). -/

/-- The standard base64 alphabet, in index order. -/
def b64Alphabet : List Char :=
  "ABCDEFGHIJKLMNOPQRSTUVWXYZabcdefghijklmnopqrstuvwxyz0123456789+/".toList

/-- The alphabet character of a 6-bit value. -/
def b64Char (n : Nat) : Char := b64Alphabet.getD n 'A'

/-- Index of a character in the base64 alphabet; `none` off the alphabet. -/
def b64Val (c : Char) : Option Nat :=
  let i := b64Alphabet.indexOf c
  if i < 64 then some i else none

/-- Base64-encode a byte list, three bytes to four characters, with `=`
padding — the `bytesToBase64`/`btoa` composite of `crypto.ts`. -/
def bytesToBase64 : List Nat → List Char
  | [] => []
  | [b1] => [b64Char (b1 / 4), b64Char (b1 % 4 * 16), '=', '=']
  | [b1, b2] => [b64Char (b1 / 4), b64Char (b1 % 4 * 16 + b2 / 16), b64Char (b2 % 16 * 4), '=']
  | b1 :: b2 :: b3 :: rest =>
      b64Char (b1 / 4) :: b64Char (b1 % 4 * 16 + b2 / 16) ::
      b64Char (b2 % 16 * 4 + b3 / 64) :: b64Char (b3 % 64) :: bytesToBase64 rest

/-- Base64-decode: the `base64ToBytes`/`atob` composite of `crypto.ts`.
`none` models the exception `atob` throws on an invalid character or an
impossible trailing length. -/
def base64ToBytes : List Char → Option (List Nat)
  | [] => some []
  | [c1, c2] =>
      (b64Val c1).bind fun a => (b64Val c2).map fun b => [a * 4 + b / 16]
  | [c1, c2, c3] =>
      (b64Val c1).bind fun a => (b64Val c2).bind fun b => (b64Val c3).map fun c =>
        [a * 4 + b / 16, b % 16 * 16 + c / 4]
  | c1 :: c2 :: c3 :: c4 :: rest =>
      if c3 = '=' ∧ c4 = '=' ∧ rest = [] then
        (b64Val c1).bind fun a => (b64Val c2).map fun b => [a * 4 + b / 16]
      else if c4 = '=' ∧ rest = [] then
        (b64Val c1).bind fun a => (b64Val c2).bind fun b => (b64Val c3).map fun c =>
          [a * 4 + b / 16, b % 16 * 16 + c / 4]
      else
        (b64Val c1).bind fun a => (b64Val c2).bind fun b =>
        (b64Val c3).bind fun c => (b64Val c4).bind fun d =>
        (base64ToBytes rest).map fun bs =>
          (a * 4 + b / 16) :: (b % 16 * 16 + c / 4) :: (c % 4 * 64 + d) :: bs
  | _ => none

/-! ## Dot-splitting of the wire payload -/

/-- JavaScript `String.prototype.split('.')` on a character list: `n` dots
give `n + 1` (possibly empty) parts. -/
def splitDot : List Char → List (List Char)
  | [] => [[]]
  | c :: rest =>
      if c = '.' then [] :: splitDot rest
      else match splitDot rest with
        | [] => [[c]]
        | p :: ps => (c :: p) :: ps

/-! ## The AEAD boundary

The repository calls AES-256-GCM through `crypto.subtle` (browser) and
`node:crypto` — external primitives.  The boundary is captured as a
structure of an encryption and a decryption function on (key, iv, body,
tag) byte lists, so the wrapper code of `crypto.ts` can be embedded once
and the cryptographic assumptions the spec makes about the cipher can be
stated as hypotheses where a theorem needs them. -/

/-- An AEAD boundary: `enc key iv plaintext = (body, tag)` and
`dec key iv body tag = some plaintext` on success, `none` on
authentication failure. -/
structure Aead where
  enc : List Nat → List Nat → List Nat → List Nat × List Nat
  dec : List Nat → List Nat → List Nat → List Nat → Option (List Nat)

/-- Modelled from the spec: one keystream byte of the AEAD cipher
(AES-256-GCM is external to the repository; the model uses SHA-256 as the
pseudorandom function).  The byte index is split base-256 so distinct
indices give distinct PRF inputs. -/
def ksByte (key iv : List Nat) (i : Nat) : Nat :=
  (sha256 (key ++ iv ++ [i / 256 % 256, i % 256])).headD 0

/-- XOR a byte list against the keystream starting at index `i`. -/
def xorKeystream (key iv : List Nat) : Nat → List Nat → List Nat
  | _, [] => []
  | i, b :: rest => (b ^^^ ksByte key iv i) :: xorKeystream key iv (i + 1) rest

/-- Modelled from the spec: the 128-bit (16-byte) authentication tag of the
AEAD cipher, a MAC of the key, iv, body length and body. -/
def gcmTag (key iv body : List Nat) : List Nat :=
  (sha256 (key ++ iv ++ [body.length % 256] ++ body)).take 16

/-- Modelled from the spec: AES-256-GCM encryption (256-bit key, 16-byte
tag, no associated data), as an idealized XOR-keystream AEAD. -/
def gcmEnc (key iv m : List Nat) : List Nat × List Nat :=
  let body := xorKeystream key iv 0 m
  (body, gcmTag key iv body)

/-- Modelled from the spec: AES-256-GCM decryption — recompute the tag over
the received body and release the plaintext only on an exact match. -/
def gcmDec (key iv body tag : List Nat) : Option (List Nat) :=
  if gcmTag key iv body = tag then some (xorKeystream key iv 0 body) else none

/-- The concrete AEAD boundary instance standing for AES-256-GCM. -/
def gcmAead : Aead := ⟨gcmEnc, gcmDec⟩

/-! ## The envelope cipher wrappers of `crypto.ts` -/

/-- Error taxonomy of the decrypt wrapper, following the spec's names:
the explicit `Invalid encrypted message payload` throw and an `atob`
decode failure are wire-format violations (`malformedCiphertext`); a
`crypto.subtle.decrypt` rejection is `authenticationFailure`; a
`getAddress` throw on a bad address is `invalidAddress`. -/
inductive DecryptError where
  | malformedCiphertext
  | authenticationFailure
  | invalidAddress
deriving DecidableEq, Repr

/-- The `encryptMessage` of `crypto.ts`: derive the key from the address,
encrypt under the AEAD with the freshly drawn 12-byte iv (passed here as
the `iv` argument, standing for `crypto.getRandomValues(new Uint8Array(12))`),
and emit `base64(iv) ++ "." ++ base64(body) ++ "." ++ base64(tag)`.
`none` models the exception `getAddress` throws on an invalid address. -/
def encryptMessage (A : Aead) (iv : List Nat) (message : List Nat) (address : List Char) :
    Option (List Char) :=
  (deriveKeyFromAddress address).map fun key =>
    let ct := A.enc key iv message
    bytesToBase64 iv ++ '.' :: (bytesToBase64 ct.1 ++ '.' :: bytesToBase64 ct.2)

/-- The `decryptMessage` of `crypto.ts`: split on `'.'` and require exactly
three parts, base64-decode each, concatenate data and tag (WebCrypto takes
the tag as the trailing 16 bytes of the combined buffer), derive the key,
and run AEAD decryption.  A combined buffer shorter than the 16-byte tag is
rejected by the cipher, hence `authenticationFailure`. -/
def decryptMessage (A : Aead) (payload : List Char) (address : List Char) :
    Except DecryptError (List Nat) :=
  match splitDot payload with
  | [ivB64, dataB64, tagB64] =>
    match base64ToBytes ivB64, base64ToBytes dataB64, base64ToBytes tagB64 with
    | some iv, some data, some tag =>
      match deriveKeyFromAddress address with
      | some key =>
        let combined := data ++ tag
        if combined.length < 16 then Except.error DecryptError.authenticationFailure
        else
          match A.dec key iv (combined.take (combined.length - 16))
              (combined.drop (combined.length - 16)) with
          | some m => Except.ok m
          | none => Except.error DecryptError.authenticationFailure
      | none => Except.error DecryptError.invalidAddress
    | _, _, _ => Except.error DecryptError.malformedCiphertext
  | _ => Except.error DecryptError.malformedCiphertext

/-! ## `normalizeDecryptedAddress`

The FHE user-decryption oracle returns the one-time identifier either as a
bigint or as a hex string; `normalizeDecryptedAddress` (identical in
`crypto.ts`, `tasks/EncryptedMessenger.ts` and the Sepolia test) maps it
back to the address.  The two dynamic-type branches are embedded as two
definitions. -/

/-- The lower-case hex digit character of a value below 16. -/
def hexDigitChar (d : Nat) : Char :=
  (['0','1','2','3','4'] ++ ['5','6','7','8','9'] ++ ['a','b','c','d','e','f']).getD d '0'

/-- Fuel-driven hex digit emission of `BigInt.prototype.toString(16)`
(lower case, no leading zeros); the fuel only needs to dominate the digit
count, and the value itself suffices. -/
def hexDigitsAux : Nat → Nat → List Char
  | 0, _ => []
  | fuel + 1, v =>
      if v = 0 then []
      else hexDigitsAux fuel (v / 16) ++ [hexDigitChar (v % 16)]

/-- JavaScript `value.toString(16)` for a non-negative bigint. -/
def natToHexStr (v : Nat) : List Char :=
  if v = 0 then ['0'] else hexDigitsAux v v

/-- The `normalizeDecryptedAddress` branch for a bigint value:
`value.toString(16).padStart(40, '0')`, then `getAddress('0x' + hex)`. -/
def normalizeDecryptedAddressNat (v : Nat) : Option (List Char) :=
  let hex := natToHexStr v
  let padded := List.replicate (40 - hex.length) '0' ++ hex
  ethGetAddress ('0' :: 'x' :: padded)

/-- The `normalizeDecryptedAddress` branch for a string value: prepend
`"0x"` exactly when the string does not already start with it, then
`getAddress`. -/
def normalizeDecryptedAddressStr (s : List Char) : Option (List Char) :=
  match s with
  | '0' :: 'x' :: _ => ethGetAddress s
  | _ => ethGetAddress ('0' :: 'x' :: s)

/-! ## The `EncryptedMessenger` contract

The Solidity contract stores a per-recipient array of `Message` records and
protects the encrypted key through the Zama FHE access-control layer.
Addresses and FHE values are embedded as `Nat`; `address(0)` is `0`.
The FHE engine itself (`FHE.fromExternal`, the ACL behind `FHE.allowThis`
and `FHE.allow`, and the user-decryption oracle) is external to the
repository and is modelled, with the spec's §4.3 contract, as an explicit
store carried in the chain state. -/

/-- The `Message` struct of `EncryptedMessenger.sol`: sender, off-chain
ciphertext string, handle of the FHE-encrypted key, and block timestamp. -/
structure ContractMessage where
  sender : Nat
  encryptedMessage : List Char
  encryptedKey : Nat
  timestamp : Nat
deriving DecidableEq

/-- Modelled from the spec: the confidential key store of the FHE engine
(§4.3), which is not part of this repository.  `vals` maps a handle to the
committed plaintext identifier, `aclContract` records the compute-context
grants of `FHE.allowThis`, `aclUser` the user-decryption grants of
`FHE.allow`, and `nextHandle` supplies fresh handles. -/
structure FheStore where
  vals : Nat → Option Nat
  aclContract : Nat → List Nat
  aclUser : Nat → List Nat
  nextHandle : Nat

/-- The full chain state: the contract's `_messages` mapping plus the FHE
store it delegates key protection to. -/
structure ChainState where
  messages : Nat → List ContractMessage
  store : FheStore

/-- The empty deployment state: no messages, an empty key store. -/
def initialChainState : ChainState :=
  ⟨fun _ => [], ⟨fun _ => none, fun _ => [], fun _ => [], 0⟩⟩

/-- Errors of `sendMessage`: the two explicit `require` strings
(`"Invalid recipient"`, `"Empty message"`) and a revert of
`FHE.fromExternal` on an invalid input proof. -/
inductive SendError where
  | invalidRecipient
  | emptyCiphertext
  | invalidProof
deriving DecidableEq, Repr

/-- The `sendMessage` function of `EncryptedMessenger.sol`.  In source
order: `require(recipient != address(0))`, `require(bytes(encryptedMessage)
.length > 0)`, `FHE.fromExternal(encryptedKey, inputProof)` (modelled as
binding the external value `extVal` to a fresh handle when `proofOk`, a
revert otherwise), the push of the record onto `_messages[recipient]`,
then `FHE.allowThis(key)` and `FHE.allow(key, recipient)`.  Returns the
new state and the index emitted by `MessageSent`
(`_messages[recipient].length - 1` after the push). -/
def sendMessage (st : ChainState) (contractAddr msgSender recipient : Nat)
    (encryptedMessage : List Char) (extVal : Nat) (proofOk : Bool) (timestamp : Nat) :
    Except SendError (ChainState × Nat) :=
  if recipient = 0 then Except.error SendError.invalidRecipient
  else if encryptedMessage = [] then Except.error SendError.emptyCiphertext
  else if proofOk = false then Except.error SendError.invalidProof
  else
    let h := st.store.nextHandle
    let record : ContractMessage := ⟨msgSender, encryptedMessage, h, timestamp⟩
    let messages := fun r =>
      if r = recipient then st.messages recipient ++ [record] else st.messages r
    let store : FheStore :=
      { vals := fun k => if k = h then some extVal else st.store.vals k
        aclContract := fun k => if k = h then [contractAddr] else st.store.aclContract k
        aclUser := fun k => if k = h then [recipient] else st.store.aclUser k
        nextHandle := h + 1 }
    Except.ok (⟨messages, store⟩, (messages recipient).length - 1)

/-- The `getMessageCount` view of `EncryptedMessenger.sol`. -/
def getMessageCount (st : ChainState) (recipient : Nat) : Nat :=
  (st.messages recipient).length

/-- The `getMessageAt` view of `EncryptedMessenger.sol`; `none` models the
out-of-bounds array revert. -/
def getMessageAt (st : ChainState) (recipient : Nat) (index : Nat) :
    Option ContractMessage :=
  (st.messages recipient).get? index

/-! ## The confidential key store read path -/

/-- Modelled from the spec: the authorization proof of §3/§4.4 — a signed,
principal-bound, time-bounded assertion naming the target handles.
`sigOk` stands for verification of the signature by the principal's
long-term identity key. -/
structure AuthProof where
  principal : Nat
  handles : List Nat
  startTime : Nat
  durationDays : Nat
  sigOk : Bool

/-- Modelled from the spec: `resolve(handle, proof)` of the confidential
key store (§4.3), which is not part of this repository.  It releases the
plaintext identifier exactly when the proof's signature verifies, the
proof names the handle, the current time lies inside the validity window,
and the proof's principal holds a user-decryption grant on the handle;
every other combination is `Unauthorized`. -/
def resolve (st : ChainState) (h : Nat) (p : AuthProof) (now : Nat) : Option Nat :=
  match st.store.vals h with
  | none => none
  | some v =>
      if p.sigOk = true ∧ h ∈ p.handles ∧
          p.startTime ≤ now ∧ now ≤ p.startTime + p.durationDays * 86400 ∧
          p.principal ∈ st.store.aclUser h then
        some v
      else none

/-! ## The decrypt-session request of `MessageComposer.tsx` -/

/-- An ephemeral keypair from `instance.generateKeypair()`. -/
structure Keypair where
  publicKey : Nat
  privateKey : Nat

/-- The typed EIP-712 message built by `instance.createEIP712(publicKey,
contractAddresses, startTimeStamp, durationDays)`. -/
structure Eip712Message where
  publicKey : Nat
  contractAddresses : List Nat
  startTimeStamp : Nat
  durationDays : Nat
deriving DecidableEq

/-- A `(handle, contractAddress)` pair of the user-decryption request. -/
structure HandleContractPair where
  handle : Nat
  contractAddress : Nat
deriving DecidableEq

/-- The argument bundle `handleDecrypt` passes to `instance.userDecrypt`. -/
structure UserDecryptRequest where
  pairs : List HandleContractPair
  privateKey : Nat
  publicKey : Nat
  signature : Nat
  contractAddresses : List Nat
  userAddress : Nat
  startTimeStamp : Nat
  durationDays : Nat

/-- The request-construction core of `Inbox.handleDecrypt` in
`MessageComposer.tsx`, embedded as a pure function of one attempt's
inputs: the ephemeral keypair freshly generated for this attempt, the
recipient's signing function (their long-term identity key), the handle
being resolved, the contract address, and the current time in seconds
(`Math.floor(Date.now() / 1000)`).  It builds the handle/contract pair
list, the EIP-712 authorization message with `startTimeStamp = now` and
`durationDays = '10'`, signs it, and assembles the `userDecrypt` call.
Nothing escapes the attempt except the returned request — the embedding
has no state, matching the source, whose keypair and signature are local
variables of one `handleDecrypt` invocation. -/
def handleDecryptRequest (kp : Keypair) (sign : Eip712Message → Nat)
    (userAddress contractAddr encryptedKey now : Nat) : UserDecryptRequest :=
  let pairs := [⟨encryptedKey, contractAddr⟩]
  let startTimeStamp := now
  let durationDays := 10
  let eip712 : Eip712Message := ⟨kp.publicKey, [contractAddr], startTimeStamp, durationDays⟩
  { pairs := pairs
    privateKey := kp.privateKey
    publicKey := kp.publicKey
    signature := sign eip712
    contractAddresses := [contractAddr]
    userAddress := userAddress
    startTimeStamp := startTimeStamp
    durationDays := durationDays }

/-! ## Auxiliary definitions for the statements -/

/-- EVM transaction semantics of a call to `sendMessage`: on a revert the
pre-state is kept and no index is emitted; on success the post-state and
the emitted index are kept. -/
def sendMessageTx (st : ChainState) (contractAddr msgSender recipient : Nat)
    (encryptedMessage : List Char) (extVal : Nat) (proofOk : Bool) (timestamp : Nat) :
    ChainState × Option Nat :=
  match sendMessage st contractAddr msgSender recipient encryptedMessage extVal proofOk timestamp with
  | Except.ok (st', i) => (st', some i)
  | Except.error _ => (st, none)

/-- One append call of a send sequence: the sender, the ciphertext string,
the external key value, and the block timestamp. -/
structure SendCall where
  sender : Nat
  msg : List Char
  extVal : Nat
  ts : Nat

/-- Run a sequence of `sendMessage` calls to one recipient, stopping at the
first revert. -/
def runSends (contractAddr recipient : Nat) : ChainState → List SendCall → Option ChainState
  | st, [] => some st
  | st, c :: cs =>
      match sendMessage st contractAddr c.sender recipient c.msg c.extVal true c.ts with
      | Except.ok (st', _) => runSends contractAddr recipient st' cs
      | Except.error _ => none

/-- The records a send sequence appends, given the first fresh handle. -/
def expectedRecords (h0 : Nat) : List SendCall → List ContractMessage
  | [] => []
  | c :: cs => ⟨c.sender, c.msg, h0, c.ts⟩ :: expectedRecords (h0 + 1) cs

/-- Flip bit `bit` of the byte at position `j`. -/
def flipByte (l : List Nat) (j bit : Nat) : List Nat :=
  l.set j (l.getD j 0 ^^^ 2 ^ bit)

/-- A single-use AEAD instance: it decrypts exactly the one genuine
ciphertext of `m₀` under `(key₀, iv₀)` and rejects everything else.  It
discharges, at a concrete instance, the idealized authenticity hypotheses
under which the tamper-detection theorem is stated (the spec's "one
encryption per key" usage pattern). -/
def oneShotAead (key0 iv0 m0 : List Nat) : Aead :=
  { enc := gcmEnc
    dec := fun k i b t =>
      if k = key0 ∧ i = iv0 ∧ (b, t) = gcmEnc key0 iv0 m0 then some m0 else none }

/-! ## Lemmas: base64 -/

theorem b64Char_mem_or (n : Nat) : b64Char n ∈ b64Alphabet ∨ b64Char n = 'A' := by
  unfold b64Char
  rw [List.getD_eq_getElem?_getD]
  cases h : b64Alphabet[n]? with
  | none => right; rfl
  | some c => left; simpa using List.getElem?_mem h

theorem b64Char_ne_dot (n : Nat) : b64Char n ≠ '.' := by
  rcases b64Char_mem_or n with h | h
  · intro he; rw [he] at h; revert h; decide
  · rw [h]; decide

theorem b64Char_ne_eqsign {n : Nat} (hn : n < 64) : b64Char n ≠ '=' := by
  revert n hn
  decide

theorem b64Val_b64Char {n : Nat} (hn : n < 64) : b64Val (b64Char n) = some n := by
  revert n hn
  decide

theorem mem_bytesToBase64_ne_dot (bs : List Nat) : '.' ∉ bytesToBase64 bs := by
  induction bs using bytesToBase64.induct with
  | case1 => simp [bytesToBase64]
  | case2 b1 =>
      simp only [bytesToBase64, List.mem_cons]
      rintro (h | h | h | h | h) <;>
        first
          | exact b64Char_ne_dot _ h.symm
          | simp_all
  | case3 b1 b2 =>
      simp only [bytesToBase64, List.mem_cons]
      rintro (h | h | h | h | h) <;>
        first
          | exact b64Char_ne_dot _ h.symm
          | simp_all
  | case4 b1 b2 b3 rest ih =>
      simp only [bytesToBase64, List.mem_cons]
      rintro (h | h | h | h | h) <;>
        first
          | exact b64Char_ne_dot _ h.symm
          | exact ih h

theorem base64ToBytes_bytesToBase64 {bs : List Nat} (hb : ∀ b ∈ bs, b < 256) :
    base64ToBytes (bytesToBase64 bs) = some bs := by
  induction bs using bytesToBase64.induct with
  | case1 => rfl
  | case2 b1 =>
      have h1 : b1 < 256 := hb b1 (by simp)
      have e1 : b64Val (b64Char (b1 / 4)) = some (b1 / 4) := b64Val_b64Char (by omega)
      have e2 : b64Val (b64Char (b1 % 4 * 16)) = some (b1 % 4 * 16) := b64Val_b64Char (by omega)
      simp [bytesToBase64, base64ToBytes, e1, e2]
      omega
  | case3 b1 b2 =>
      have h1 : b1 < 256 := hb b1 (by simp)
      have h2 : b2 < 256 := hb b2 (by simp)
      have e1 : b64Val (b64Char (b1 / 4)) = some (b1 / 4) := b64Val_b64Char (by omega)
      have e2 : b64Val (b64Char (b1 % 4 * 16 + b2 / 16)) = some (b1 % 4 * 16 + b2 / 16) :=
        b64Val_b64Char (by omega)
      have e3 : b64Val (b64Char (b2 % 16 * 4)) = some (b2 % 16 * 4) := b64Val_b64Char (by omega)
      have ne3 : b64Char (b2 % 16 * 4) ≠ '=' := b64Char_ne_eqsign (by omega)
      simp [bytesToBase64, base64ToBytes, e1, e2, e3, ne3]
      constructor <;> omega
  | case4 b1 b2 b3 rest ih =>
      have h1 : b1 < 256 := hb b1 (by simp)
      have h2 : b2 < 256 := hb b2 (by simp)
      have h3 : b3 < 256 := hb b3 (by simp)
      have hrest : ∀ b ∈ rest, b < 256 := fun b h => hb b (by simp [h])
      have e1 : b64Val (b64Char (b1 / 4)) = some (b1 / 4) := b64Val_b64Char (by omega)
      have e2 : b64Val (b64Char (b1 % 4 * 16 + b2 / 16)) = some (b1 % 4 * 16 + b2 / 16) :=
        b64Val_b64Char (by omega)
      have e3 : b64Val (b64Char (b2 % 16 * 4 + b3 / 64)) = some (b2 % 16 * 4 + b3 / 64) :=
        b64Val_b64Char (by omega)
      have e4 : b64Val (b64Char (b3 % 64)) = some (b3 % 64) := b64Val_b64Char (by omega)
      have ne3 : b64Char (b2 % 16 * 4 + b3 / 64) ≠ '=' := b64Char_ne_eqsign (by omega)
      have ne4 : b64Char (b3 % 64) ≠ '=' := b64Char_ne_eqsign (by omega)
      simp [bytesToBase64, base64ToBytes, e1, e2, e3, e4, ne3, ne4, ih hrest]
      refine ⟨by omega, by omega, by omega⟩

/-! ## Lemmas: dot-splitting -/

theorem splitDot_no_dot {l : List Char} (h : '.' ∉ l) : splitDot l = [l] := by
  induction l with
  | nil => rfl
  | cons c rest ih =>
      have hc : c ≠ '.' := fun he => h (by simp [he])
      have hr : '.' ∉ rest := fun hm => h (by simp [hm])
      simp only [splitDot, if_neg hc, ih hr]

theorem splitDot_append {a r : List Char} (h : '.' ∉ a) :
    splitDot (a ++ '.' :: r) = a :: splitDot r := by
  induction a with
  | nil => simp [splitDot]
  | cons c rest ih =>
      have hc : c ≠ '.' := fun he => h (by simp [he])
      have hr : '.' ∉ rest := fun hm => h (by simp [hm])
      have hrw := ih hr
      simp only [List.cons_append, splitDot, if_neg hc]
      rw [show rest.append ('.' :: r) = rest ++ '.' :: r from rfl, hrw]

theorem splitDot_three {a b c : List Char} (ha : '.' ∉ a) (hb : '.' ∉ b) (hc : '.' ∉ c) :
    splitDot (a ++ '.' :: (b ++ '.' :: c)) = [a, b, c] := by
  rw [splitDot_append ha, splitDot_append hb, splitDot_no_dot hc]

/-! ## Lemmas: the keystream and the modelled GCM -/

theorem xorKeystream_involutive (key iv : List Nat) :
    ∀ (i : Nat) (l : List Nat), xorKeystream key iv i (xorKeystream key iv i l) = l := by
  intro i l
  induction l generalizing i with
  | nil => rfl
  | cons b rest ih =>
      simp only [xorKeystream, Nat.xor_cancel_right, ih]

theorem xorKeystream_length (key iv : List Nat) :
    ∀ (i : Nat) (l : List Nat), (xorKeystream key iv i l).length = l.length := by
  intro i l
  induction l generalizing i with
  | nil => rfl
  | cons b rest ih => simp only [xorKeystream, List.length_cons, ih]

theorem digestBytes_lt (hv : Hash8) : ∀ b ∈ digestBytes hv, b < 256 := by
  intro b hb
  simp only [digestBytes, wordBytes, List.mem_append, List.mem_cons,
    List.not_mem_nil, or_false] at hb
  rcases hb with ((h|h|h|h)|(h|h|h|h)) | ((h|h|h|h)|(h|h|h|h)) |
    ((h|h|h|h)|(h|h|h|h)) | ((h|h|h|h)|(h|h|h|h)) <;> omega

theorem sha256_lt (m : List Nat) : ∀ b ∈ sha256 m, b < 256 :=
  digestBytes_lt _

theorem sha256_length (m : List Nat) : (sha256 m).length = 32 := by
  simp [sha256, digestBytes, wordBytes]

theorem ksByte_lt (key iv : List Nat) (i : Nat) : ksByte key iv i < 256 := by
  unfold ksByte
  cases h : sha256 (key ++ iv ++ [i / 256 % 256, i % 256]) with
  | nil => simp [List.headD]
  | cons b rest =>
      simp only [List.headD]
      exact sha256_lt _ b (by rw [h]; simp)

theorem xorKeystream_lt {l : List Nat} (hl : ∀ b ∈ l, b < 256) (key iv : List Nat) :
    ∀ (i : Nat), ∀ b ∈ xorKeystream key iv i l, b < 256 := by
  induction l with
  | nil => intro i b hb; simp [xorKeystream] at hb
  | cons x rest ih =>
      intro i b hb
      simp only [xorKeystream, List.mem_cons] at hb
      rcases hb with h | h
      · subst h
        have h1 : x < 2 ^ 8 := hl x (by simp)
        have h2 : ksByte key iv i < 2 ^ 8 := ksByte_lt key iv i
        exact Nat.xor_lt_two_pow h1 h2
      · exact ih (fun b hb => hl b (by simp [hb])) (i + 1) b h

theorem gcmTag_length (key iv body : List Nat) : (gcmTag key iv body).length = 16 := by
  simp [gcmTag, List.length_take, sha256_length]

theorem gcmTag_lt (key iv body : List Nat) : ∀ b ∈ gcmTag key iv body, b < 256 := by
  intro b hb
  exact sha256_lt _ b (List.take_subset _ _ hb)

/-! ## Lemmas: hex digits and values -/

theorem hexVal_lt (c : Char) : hexVal c < 16 := by
  have hcn : c.toNat = c.val.toBitVec.toNat := rfl
  unfold hexVal
  repeat' split
  all_goals (try omega)
  all_goals
    (rename_i h
     obtain ⟨h1, h2⟩ := h
     simp [Char.le_def, UInt32.le_def, BitVec.le_def] at h1 h2
     omega)

theorem hexVal_toLowerHex (c : Char) : hexVal (toLowerHex c) = hexVal c := by
  unfold toLowerHex
  repeat' split
  all_goals (first | rfl | (subst_eqs; decide))

theorem isHexDigitChar_toLowerHex {c : Char} (h : isHexDigitChar c = true) :
    isHexDigitChar (toLowerHex c) = true := by
  have hmem : c ∈ (['0','1','2','3','4'] ++ ['5','6','7','8','9'] ++
      ['a','b','c','d','e','f'] ++ ['A','B','C','D','E','F'] : List Char) := by
    simpa [isHexDigitChar] using h
  simp only [List.append_assoc, List.cons_append, List.nil_append] at hmem
  fin_cases hmem <;> decide

theorem hexPairsToBytes_congr :
    ∀ {l1 l2 : List Char}, l1.map hexVal = l2.map hexVal →
      hexPairsToBytes l1 = hexPairsToBytes l2 := by
  intro l1
  induction l1 using hexPairsToBytes.induct with
  | case1 =>
      intro l2 h
      match l2 with
      | [] => rfl
      | d :: ds => simp at h
  | case2 c =>
      intro l2 h
      match l2 with
      | [] => simp at h
      | [d] => rfl
      | d0 :: d1 :: ds => simp at h
  | case3 c0 c1 rest ih =>
      intro l2 h
      match l2 with
      | d0 :: d1 :: rest2 =>
          simp only [List.map_cons, List.cons.injEq] at h
          obtain ⟨h0, h1, h2⟩ := h
          simp only [hexPairsToBytes, h0, h1, ih h2]
      | [] => simp at h
      | [d0] => simp at h

theorem hexPairsToBytes_length :
    ∀ (l : List Char), (hexPairsToBytes l).length = l.length / 2 := by
  intro l
  induction l using hexPairsToBytes.induct with
  | case1 => rfl
  | case2 c => simp [hexPairsToBytes]
  | case3 c0 c1 rest ih =>
      simp only [hexPairsToBytes, List.length_cons, ih]
      omega

theorem hexPairsToBytes_lt :
    ∀ (l : List Char), ∀ b ∈ hexPairsToBytes l, b < 256 := by
  intro l
  induction l using hexPairsToBytes.induct with
  | case1 => intro b hb; simp [hexPairsToBytes] at hb
  | case2 c => intro b hb; simp [hexPairsToBytes] at hb
  | case3 c0 c1 rest ih =>
      intro b hb
      simp only [hexPairsToBytes, List.mem_cons] at hb
      rcases hb with h | h
      · have := hexVal_lt c0
        have := hexVal_lt c1
        omega
      · exact ih b h

/-! ## Lemmas: base-16 digit values -/

theorem foldl_digits (a : Nat) (l : List Char) :
    l.foldl (fun a c => 16 * a + hexVal c) a =
      a * 16 ^ l.length + digitsVal l := by
  induction l generalizing a with
  | nil => simp [digitsVal]
  | cons c rest ih =>
      simp only [List.foldl_cons, List.length_cons, digitsVal]
      rw [ih, ih (16 * 0 + hexVal c)]
      ring

theorem digitsVal_cons (c : Char) (l : List Char) :
    digitsVal (c :: l) = hexVal c * 16 ^ l.length + digitsVal l := by
  simp only [digitsVal, List.foldl_cons]
  rw [foldl_digits]
  ring_nf
  rfl

theorem digitsVal_append (l1 l2 : List Char) :
    digitsVal (l1 ++ l2) = digitsVal l1 * 16 ^ l2.length + digitsVal l2 := by
  simp only [digitsVal, List.foldl_append]
  rw [foldl_digits (List.foldl _ 0 l1)]
  rfl

theorem digitsVal_lt (l : List Char) : digitsVal l < 16 ^ l.length := by
  induction l with
  | nil => simp [digitsVal]
  | cons c rest ih =>
      rw [digitsVal_cons]
      have h1 : hexVal c < 16 := hexVal_lt c
      have h2 : 16 ^ (c :: rest).length = 16 * 16 ^ rest.length := by
        simp [pow_succ]; ring
      simp only [List.length_cons, pow_succ]
      nlinarith

theorem map_hexVal_eq_of_digitsVal_eq :
    ∀ {l1 l2 : List Char}, l1.length = l2.length → digitsVal l1 = digitsVal l2 →
      l1.map hexVal = l2.map hexVal := by
  intro l1
  induction l1 with
  | nil =>
      intro l2 hlen _
      match l2 with
      | [] => rfl
  | cons c rest ih =>
      intro l2 hlen hval
      match l2 with
      | d :: rest2 =>
          simp only [List.length_cons, Nat.add_right_cancel_iff] at hlen
          rw [digitsVal_cons, digitsVal_cons, hlen] at hval
          have hb1 : digitsVal rest < 16 ^ rest2.length := hlen ▸ digitsVal_lt rest
          have hb2 : digitsVal rest2 < 16 ^ rest2.length := digitsVal_lt rest2
          have hpos : 0 < 16 ^ rest2.length := Nat.pos_pow_of_pos _ (by omega)
          have hceq : hexVal c = hexVal d := by
            have h1 : (hexVal c * 16 ^ rest2.length + digitsVal rest) / 16 ^ rest2.length =
                hexVal c := by
              rw [Nat.mul_comm (hexVal c), Nat.mul_add_div hpos, Nat.div_eq_of_lt hb1]
              omega
            have h2 : (hexVal d * 16 ^ rest2.length + digitsVal rest2) / 16 ^ rest2.length =
                hexVal d := by
              rw [Nat.mul_comm (hexVal d), Nat.mul_add_div hpos, Nat.div_eq_of_lt hb2]
              omega
            rw [← h1, ← h2, hval]
          have hreq : digitsVal rest = digitsVal rest2 := by
            rw [hceq] at hval
            omega
          simp only [List.map_cons, hceq, ih hlen hreq]

/-! ## Lemmas: hex emission of bigint values -/

theorem hexDigitChar_hexVal {d : Nat} (hd : d < 16) : hexVal (hexDigitChar d) = d := by
  revert d hd
  decide

theorem hexDigitChar_isHex {d : Nat} (hd : d < 16) : isHexDigitChar (hexDigitChar d) = true := by
  revert d hd
  decide

theorem digitsVal_hexDigitsAux :
    ∀ (fuel v : Nat), v ≤ fuel → digitsVal (hexDigitsAux fuel v) = v := by
  intro fuel
  induction fuel with
  | zero => intro v hv; interval_cases v; rfl
  | succ n ih =>
      intro v hv
      by_cases h0 : v = 0
      · simp [hexDigitsAux, h0, digitsVal]
      · have hdiv : v / 16 ≤ n := by
          have := Nat.div_lt_self (Nat.pos_of_ne_zero h0) (by omega : 1 < 16)
          omega
        simp only [hexDigitsAux, if_neg h0]
        rw [digitsVal_append, ih (v / 16) hdiv]
        simp only [List.length_cons, List.length_nil, pow_one, digitsVal_cons,
          List.length_nil, pow_zero]
        rw [hexDigitChar_hexVal (Nat.mod_lt v (by omega))]
        simp [digitsVal]
        omega

theorem digitsVal_natToHexStr (v : Nat) : digitsVal (natToHexStr v) = v := by
  unfold natToHexStr
  by_cases h : v = 0
  · simp [h, digitsVal_cons, digitsVal]
    decide
  · rw [if_neg h]
    exact digitsVal_hexDigitsAux v v le_rfl

theorem length_hexDigitsAux_le :
    ∀ (fuel v k : Nat), v ≤ fuel → v < 16 ^ k → (hexDigitsAux fuel v).length ≤ k := by
  intro fuel
  induction fuel with
  | zero =>
      intro v k hv _
      interval_cases v
      simp [hexDigitsAux]
  | succ n ih =>
      intro v k hv hk
      by_cases h0 : v = 0
      · simp [hexDigitsAux, h0]
      · have hkpos : k ≠ 0 := by
          intro h
          rw [h, pow_zero] at hk
          omega
        obtain ⟨k', rfl⟩ := Nat.exists_eq_succ_of_ne_zero hkpos
        have hdiv : v / 16 ≤ n := by
          have := Nat.div_lt_self (Nat.pos_of_ne_zero h0) (by omega : 1 < 16)
          omega
        have hdk : v / 16 < 16 ^ k' := by
          rw [Nat.div_lt_iff_lt_mul (by omega : 0 < 16)]
          rw [pow_succ] at hk
          omega
        simp only [hexDigitsAux, if_neg h0, List.length_append, List.length_cons,
          List.length_nil]
        have := ih (v / 16) k' hdiv hdk
        omega

theorem length_natToHexStr_le {v k : Nat} (hk : 1 ≤ k) (hv : v < 16 ^ k) :
    (natToHexStr v).length ≤ k := by
  unfold natToHexStr
  by_cases h : v = 0
  · simp [h]
    omega
  · rw [if_neg h]
    exact length_hexDigitsAux_le v v k le_rfl hv

theorem hexDigitsAux_isHex :
    ∀ (fuel v : Nat), ∀ c ∈ hexDigitsAux fuel v, isHexDigitChar c = true := by
  intro fuel
  induction fuel with
  | zero => intro v c hc; simp [hexDigitsAux] at hc
  | succ n ih =>
      intro v c hc
      by_cases h0 : v = 0
      · simp [hexDigitsAux, h0] at hc
      · simp only [hexDigitsAux, if_neg h0, List.mem_append, List.mem_cons,
          List.not_mem_nil, or_false] at hc
        rcases hc with h | h
        · exact ih (v / 16) c h
        · rw [h]
          exact hexDigitChar_isHex (Nat.mod_lt v (by omega))

theorem natToHexStr_isHex (v : Nat) : ∀ c ∈ natToHexStr v, isHexDigitChar c = true := by
  unfold natToHexStr
  by_cases h : v = 0
  · simp [h]
    decide
  · rw [if_neg h]
    exact hexDigitsAux_isHex v v

/-! ## Lemmas: address normalization and key derivation -/

theorem digitsVal_replicate_zero (k : Nat) : digitsVal (List.replicate k '0') = 0 := by
  induction k with
  | zero => rfl
  | succ n ih =>
      rw [List.replicate_succ, digitsVal_cons, ih]
      simp
      decide

theorem digitsVal_pad (k : Nat) (l : List Char) :
    digitsVal (List.replicate k '0' ++ l) = digitsVal l := by
  rw [digitsVal_append, digitsVal_replicate_zero]
  simp

theorem digitsVal_map_toLowerHex (l : List Char) :
    digitsVal (l.map toLowerHex) = digitsVal l := by
  induction l with
  | nil => rfl
  | cons c rest ih =>
      rw [List.map_cons, digitsVal_cons, digitsVal_cons, ih, hexVal_toLowerHex,
        List.length_map]

theorem ethGetAddress_eq {digits : List Char} (h40 : digits.length = 40)
    (hhex : digits.all isHexDigitChar = true) :
    ethGetAddress ('0' :: 'x' :: digits) = some ('0' :: 'x' :: digits.map toLowerHex) := by
  simp [ethGetAddress, h40, hhex]

theorem hexToBytes_map_toLowerHex (digits : List Char) :
    hexToBytes (digits.map toLowerHex) = hexToBytes digits := by
  unfold hexToBytes
  rw [List.length_map]
  have hcongr : ∀ (l : List Char), (l.map toLowerHex).map hexVal = l.map hexVal := by
    intro l
    rw [List.map_map]
    exact List.map_congr_left fun c _ => hexVal_toLowerHex c
  split
  · exact hexPairsToBytes_congr (hcongr digits)
  · have : ('0' :: digits.map toLowerHex).map hexVal = ('0' :: digits).map hexVal := by
      simp only [List.map_cons, hcongr digits]
    exact hexPairsToBytes_congr this

theorem deriveKeyFromAddress_eq {digits : List Char} (h40 : digits.length = 40)
    (hhex : digits.all isHexDigitChar = true) :
    deriveKeyFromAddress ('0' :: 'x' :: digits) = some (sha256 (hexToBytes digits)) := by
  unfold deriveKeyFromAddress
  rw [ethGetAddress_eq h40 hhex]
  simp only [Option.map_some']
  rw [List.drop_succ_cons, List.drop_succ_cons, List.drop_zero,
    hexToBytes_map_toLowerHex]

theorem hexToBytes_length_40 {digits : List Char} (h40 : digits.length = 40) :
    (hexToBytes digits).length = 20 := by
  unfold hexToBytes
  rw [h40]
  norm_num
  rw [hexPairsToBytes_length, h40]

theorem hexToBytes_lt (digits : List Char) : ∀ b ∈ hexToBytes digits, b < 256 := by
  unfold hexToBytes
  split <;> intro b hb <;> exact hexPairsToBytes_lt _ b hb

/-! ## Lemmas: the message ledger -/

theorem sendMessage_ok_spec (st : ChainState) (ca s recipient : Nat) (em : List Char)
    (v : Nat) (t : Nat) (h1 : recipient ≠ 0) (h2 : em ≠ []) :
    ∃ st', sendMessage st ca s recipient em v true t =
        Except.ok (st', (st.messages recipient).length) ∧
      st'.messages recipient =
        st.messages recipient ++ [⟨s, em, st.store.nextHandle, t⟩] ∧
      (∀ r', r' ≠ recipient → st'.messages r' = st.messages r') ∧
      st'.store.nextHandle = st.store.nextHandle + 1 ∧
      st'.store.vals st.store.nextHandle = some v ∧
      st'.store.aclUser st.store.nextHandle = [recipient] ∧
      st'.store.aclContract st.store.nextHandle = [ca] := by
  refine ⟨⟨fun r => if r = recipient then
        st.messages recipient ++ [⟨s, em, st.store.nextHandle, t⟩] else st.messages r,
      ⟨fun k => if k = st.store.nextHandle then some v else st.store.vals k,
       fun k => if k = st.store.nextHandle then [ca] else st.store.aclContract k,
       fun k => if k = st.store.nextHandle then [recipient] else st.store.aclUser k,
       st.store.nextHandle + 1⟩⟩, ?_, ?_, ?_, ?_, ?_, ?_, ?_⟩
  · simp only [sendMessage, if_neg h1, if_neg h2]
    simp
  · simp
  · intro r' hr'
    simp [if_neg hr']
  · simp
  · simp
  · simp
  · simp

theorem expectedRecords_length (cs : List SendCall) :
    ∀ (h0 : Nat), (expectedRecords h0 cs).length = cs.length := by
  induction cs with
  | nil => intro h0; rfl
  | cons c rest ih => intro h0; simp [expectedRecords, ih]

theorem expectedRecords_get (cs : List SendCall) :
    ∀ (h0 k : Nat), (expectedRecords h0 cs).get? k =
      (cs.get? k).map fun c => ⟨c.sender, c.msg, h0 + k, c.ts⟩ := by
  induction cs with
  | nil => intro h0 k; simp [expectedRecords]
  | cons c rest ih =>
      intro h0 k
      cases k with
      | zero => simp [expectedRecords]
      | succ k' =>
          simp only [expectedRecords, List.get?_cons_succ, ih (h0 + 1) k']
          congr 1
          funext c
          simp
          omega

theorem runSends_spec (ca recipient : Nat) (hr : recipient ≠ 0) :
    ∀ (cs : List SendCall) (st : ChainState), (∀ c ∈ cs, c.msg ≠ []) →
      ∃ st', runSends ca recipient st cs = some st' ∧
        st'.messages recipient =
          st.messages recipient ++ expectedRecords st.store.nextHandle cs ∧
        (∀ r', r' ≠ recipient → st'.messages r' = st.messages r') ∧
        st'.store.nextHandle = st.store.nextHandle + cs.length := by
  intro cs
  induction cs with
  | nil =>
      intro st _
      exact ⟨st, rfl, by simp [expectedRecords], fun _ _ => rfl, by simp⟩
  | cons c rest ih =>
      intro st hmsgs
      obtain ⟨st1, hok, hmsg1, hother1, hnext1, _, _, _⟩ :=
        sendMessage_ok_spec st ca c.sender recipient c.msg c.extVal c.ts hr
          (hmsgs c (by simp))
      obtain ⟨st', hrun, hmsg2, hother2, hnext2⟩ :=
        ih st1 (fun d hd => hmsgs d (by simp [hd]))
      refine ⟨st', ?_, ?_, ?_, ?_⟩
      · simp only [runSends, hok, hrun]
      · rw [hmsg2, hmsg1, hnext1]
        simp [expectedRecords]
      · intro r' hr'
        rw [hother2 r' hr', hother1 r' hr']
      · rw [hnext2, hnext1]
        simp only [List.length_cons]
        omega

/-! ## Lemmas: the decrypt path -/

theorem decryptMessage_of_parts (A : Aead) (addr : List Char) {iv body tag key : List Nat}
    (hivb : ∀ b ∈ iv, b < 256) (hbodyb : ∀ b ∈ body, b < 256) (htagb : ∀ b ∈ tag, b < 256)
    (htag16 : tag.length = 16)
    (hkey : deriveKeyFromAddress addr = some key) :
    decryptMessage A
        (bytesToBase64 iv ++ '.' :: (bytesToBase64 body ++ '.' :: bytesToBase64 tag)) addr =
      match A.dec key iv body tag with
      | some m => Except.ok m
      | none => Except.error DecryptError.authenticationFailure := by
  have hsplit := splitDot_three (mem_bytesToBase64_ne_dot iv)
    (mem_bytesToBase64_ne_dot body) (mem_bytesToBase64_ne_dot tag)
  unfold decryptMessage
  rw [hsplit]
  simp only [base64ToBytes_bytesToBase64 hivb, base64ToBytes_bytesToBase64 hbodyb,
    base64ToBytes_bytesToBase64 htagb, hkey]
  have hnot : ¬ ((body ++ tag).length < 16) := by
    simp only [List.length_append, htag16]
    omega
  have hlen : (body ++ tag).length - 16 = body.length := by
    simp only [List.length_append, htag16]
    omega
  rw [if_neg hnot, hlen, List.take_left, List.drop_left]

/-! ## Claim C1 -/

/-- C1: for every plaintext byte sequence `m` and every (well-formed
42-character) ephemeral address, decrypting the output of
`encryptMessage` under the same address returns exactly `m`:
`decrypt(encrypt(m, i), i) = m`.  The freshly drawn random iv of the
source is the `iv` parameter. -/
theorem round_trip_encrypt_decrypt {digits : List Char} (h40 : digits.length = 40)
    (hhex : digits.all isHexDigitChar = true) (iv m : List Nat)
    (hiv : ∀ b ∈ iv, b < 256) (hm : ∀ b ∈ m, b < 256) (payload : List Char)
    (henc : encryptMessage gcmAead iv m ('0' :: 'x' :: digits) = some payload) :
    decryptMessage gcmAead payload ('0' :: 'x' :: digits) = Except.ok m := by
  have hkey := deriveKeyFromAddress_eq h40 hhex
  unfold encryptMessage at henc
  rw [hkey] at henc
  simp only [Option.map_some', Option.some.injEq] at henc
  subst henc
  have hE : gcmAead.enc (sha256 (hexToBytes digits)) iv m =
      (xorKeystream (sha256 (hexToBytes digits)) iv 0 m,
       gcmTag (sha256 (hexToBytes digits)) iv
         (xorKeystream (sha256 (hexToBytes digits)) iv 0 m)) := rfl
  rw [hE]
  dsimp only
  have hbodyb : ∀ b ∈ xorKeystream (sha256 (hexToBytes digits)) iv 0 m, b < 256 :=
    xorKeystream_lt hm _ iv 0
  rw [decryptMessage_of_parts gcmAead _ hiv hbodyb (gcmTag_lt _ _ _) (gcmTag_length _ _ _) hkey]
  have hD : gcmAead.dec (sha256 (hexToBytes digits)) iv
      (xorKeystream (sha256 (hexToBytes digits)) iv 0 m)
      (gcmTag (sha256 (hexToBytes digits)) iv
        (xorKeystream (sha256 (hexToBytes digits)) iv 0 m)) =
      some (xorKeystream (sha256 (hexToBytes digits)) iv 0
        (xorKeystream (sha256 (hexToBytes digits)) iv 0 m)) := by
    simp [gcmAead, gcmDec]
  rw [hD, xorKeystream_involutive]

/-- Witness for C1: a concrete two-byte message round-trips through a
concrete well-formed address and iv. -/
theorem round_trip_encrypt_decrypt_witness :
    decryptMessage gcmAead
      ((encryptMessage gcmAead [1,2,3,4,5,6,7,8,9,10,11,12] [72, 105]
        ('0' :: 'x' :: List.replicate 40 '0')).getD [])
      ('0' :: 'x' :: List.replicate 40 '0') = Except.ok [72, 105] :=
  round_trip_encrypt_decrypt (by decide) (by decide)
    [1,2,3,4,5,6,7,8,9,10,11,12] [72, 105] (by decide) (by decide) _ rfl

/-! ## Claim C2 -/

/-- C2: the output of `encryptMessage` is exactly three base64-encoded
byte strings joined by `'.'` in the order iv, body, tag; the iv is the
fresh 12-byte (96-bit) random value drawn by the source, the tag is 16
bytes (128 bits), and the AEAD key is the 32-byte (256-bit) derived key.
The model cipher takes no associated data, mirroring the
`crypto.subtle.encrypt({ name: "AES-GCM", iv }, key, encoded)` call. -/
theorem encrypt_wire_format {digits : List Char} (h40 : digits.length = 40)
    (hhex : digits.all isHexDigitChar = true) (iv m : List Nat)
    (hiv12 : iv.length = 12) (hiv : ∀ b ∈ iv, b < 256) (hm : ∀ b ∈ m, b < 256)
    (payload : List Char)
    (henc : encryptMessage gcmAead iv m ('0' :: 'x' :: digits) = some payload) :
    ∃ key body tag,
      deriveKeyFromAddress ('0' :: 'x' :: digits) = some key ∧ key.length = 32 ∧
      gcmAead.enc key iv m = (body, tag) ∧
      payload = bytesToBase64 iv ++ '.' :: (bytesToBase64 body ++ '.' :: bytesToBase64 tag) ∧
      splitDot payload = [bytesToBase64 iv, bytesToBase64 body, bytesToBase64 tag] ∧
      base64ToBytes (bytesToBase64 iv) = some iv ∧ iv.length = 12 ∧
      base64ToBytes (bytesToBase64 body) = some body ∧
      base64ToBytes (bytesToBase64 tag) = some tag ∧ tag.length = 16 := by
  have hkey := deriveKeyFromAddress_eq h40 hhex
  unfold encryptMessage at henc
  rw [hkey] at henc
  simp only [Option.map_some', Option.some.injEq] at henc
  subst henc
  refine ⟨sha256 (hexToBytes digits),
    xorKeystream (sha256 (hexToBytes digits)) iv 0 m,
    gcmTag (sha256 (hexToBytes digits)) iv (xorKeystream (sha256 (hexToBytes digits)) iv 0 m),
    hkey, sha256_length _, rfl, rfl, ?_, ?_, hiv12, ?_, ?_, gcmTag_length _ _ _⟩
  · exact splitDot_three (mem_bytesToBase64_ne_dot iv)
      (mem_bytesToBase64_ne_dot _) (mem_bytesToBase64_ne_dot _)
  · exact base64ToBytes_bytesToBase64 hiv
  · exact base64ToBytes_bytesToBase64 (xorKeystream_lt hm _ iv 0)
  · exact base64ToBytes_bytesToBase64 (gcmTag_lt _ _ _)

/-- Witness for C2: the wire-format properties hold at a concrete message,
iv and address. -/
theorem encrypt_wire_format_witness :
    ∃ key body tag,
      deriveKeyFromAddress ('0' :: 'x' :: List.replicate 40 '0') = some key ∧
      key.length = 32 ∧
      gcmAead.enc key [1,2,3,4,5,6,7,8,9,10,11,12] [72, 105] = (body, tag) ∧
      ((encryptMessage gcmAead [1,2,3,4,5,6,7,8,9,10,11,12] [72, 105]
          ('0' :: 'x' :: List.replicate 40 '0')).getD []) =
        bytesToBase64 [1,2,3,4,5,6,7,8,9,10,11,12] ++
          '.' :: (bytesToBase64 body ++ '.' :: bytesToBase64 tag) ∧
      splitDot ((encryptMessage gcmAead [1,2,3,4,5,6,7,8,9,10,11,12] [72, 105]
          ('0' :: 'x' :: List.replicate 40 '0')).getD []) =
        [bytesToBase64 [1,2,3,4,5,6,7,8,9,10,11,12], bytesToBase64 body, bytesToBase64 tag] ∧
      base64ToBytes (bytesToBase64 [1,2,3,4,5,6,7,8,9,10,11,12]) =
        some [1,2,3,4,5,6,7,8,9,10,11,12] ∧
      ([1,2,3,4,5,6,7,8,9,10,11,12] : List Nat).length = 12 ∧
      base64ToBytes (bytesToBase64 body) = some body ∧
      base64ToBytes (bytesToBase64 tag) = some tag ∧ tag.length = 16 :=
  encrypt_wire_format (by decide) (by decide) [1,2,3,4,5,6,7,8,9,10,11,12] [72, 105]
    (by decide) (by decide) (by decide) _ rfl

/-! ## Claim C3 -/

/-- C3: `deriveKeyFromAddress` is the pure function
`address ↦ SHA-256(address bytes)`: for every well-formed address the key
is exactly the SHA-256 hash of the 20 raw identifier bytes obtained after
checksum normalization, the key is 32 bytes (256 bits), and nothing but
the digit values of the address affects the result (in particular the
checksum casing does not).  Determinism is inherent: the embedding is a
function of the address alone, exactly as the source computes
`createHash("sha256").update(addressBytes).digest()` from its sole
argument. -/
theorem deriveKey_pure_sha256 {digits : List Char} (h40 : digits.length = 40)
    (hhex : digits.all isHexDigitChar = true) :
    deriveKeyFromAddress ('0' :: 'x' :: digits) = some (sha256 (hexToBytes digits)) ∧
    (hexToBytes digits).length = 20 ∧
    (sha256 (hexToBytes digits)).length = 32 ∧
    (∀ digits2 : List Char, digits2.length = 40 → digits2.all isHexDigitChar = true →
      digits.map hexVal = digits2.map hexVal →
      deriveKeyFromAddress ('0' :: 'x' :: digits) =
        deriveKeyFromAddress ('0' :: 'x' :: digits2)) := by
  refine ⟨deriveKeyFromAddress_eq h40 hhex, hexToBytes_length_40 h40, sha256_length _, ?_⟩
  intro digits2 h40b hhexb hmap
  rw [deriveKeyFromAddress_eq h40 hhex, deriveKeyFromAddress_eq h40b hhexb]
  have : hexToBytes digits = hexToBytes digits2 := by
    unfold hexToBytes
    rw [h40, h40b]
    norm_num
    exact hexPairsToBytes_congr hmap
  rw [this]

/-- Witness for C3: the characterization holds at a concrete address, and
the upper-case checksum variant of that address yields the same key. -/
theorem deriveKey_pure_sha256_witness :
    deriveKeyFromAddress ('0' :: 'x' :: List.replicate 40 'a') =
      some (sha256 (hexToBytes (List.replicate 40 'a'))) ∧
    (hexToBytes (List.replicate 40 'a')).length = 20 ∧
    (sha256 (hexToBytes (List.replicate 40 'a'))).length = 32 ∧
    deriveKeyFromAddress ('0' :: 'x' :: List.replicate 40 'a') =
      deriveKeyFromAddress ('0' :: 'x' :: List.replicate 40 'A') := by
  have h := @deriveKey_pure_sha256 (List.replicate 40 'a') (by decide) (by decide)
  exact ⟨h.1, h.2.1, h.2.2.1, h.2.2.2 (List.replicate 40 'A') (by decide) (by decide) (by decide)⟩

/-! ## Claim C4 (corrected) -/

/-- Counterexample to C4 as stated: a payload whose three parts are valid
base64 but whose decoded iv is 3 bytes (not 96 bits) and whose decoded tag
is 3 bytes (not 128 bits) is rejected with `AuthenticationFailure`, not
with `MalformedCiphertext` — the source performs no field-length
validation; only the `parts.length !== 3` check and base64 parsing can
raise the wire-format error, and a wrong-length triple reaches the cipher
and fails there. -/
theorem wrong_length_not_malformed :
    decryptMessage gcmAead ("AAAA.AAAA.AAAA".toList)
        ('0' :: 'x' :: List.replicate 40 '0') =
      Except.error DecryptError.authenticationFailure ∧
    decryptMessage gcmAead ("AAAA.AAAA.AAAA".toList)
        ('0' :: 'x' :: List.replicate 40 '0') ≠
      Except.error DecryptError.malformedCiphertext := by
  constructor
  · rfl
  · intro h
    rw [show decryptMessage gcmAead ("AAAA.AAAA.AAAA".toList)
        ('0' :: 'x' :: List.replicate 40 '0') =
        Except.error DecryptError.authenticationFailure from rfl] at h
    simp at h

/-- C4 amended: `decryptMessage` fails with `MalformedCiphertext` exactly
when the payload does not split into three dot-separated parts that all
parse as base64 — the `parts.length !== 3` throw and an `atob` failure.
Wrong field lengths are not detected as a wire-format error: such payloads
reach the cipher, which rejects them as `AuthenticationFailure` (see the
counterexample), still returning no plaintext. -/
theorem malformed_iff_not_three_b64_parts (A : Aead) (payload addr : List Char) :
    decryptMessage A payload addr = Except.error DecryptError.malformedCiphertext ↔
      ¬ ∃ p1 p2 p3 b1 b2 b3, splitDot payload = [p1, p2, p3] ∧
        base64ToBytes p1 = some b1 ∧ base64ToBytes p2 = some b2 ∧
        base64ToBytes p3 = some b3 := by
  unfold decryptMessage
  split
  case _ ivB dataB tagB heq =>
    split
    case _ iv data tag hiv hdata htag =>
      constructor
      · intro h
        exfalso
        revert h
        split
        next key hkeyeq =>
          dsimp only
          split
          next => intro h; exact absurd h (by simp)
          next =>
            split
            next => intro h; exact absurd h (by simp)
            next => intro h; exact absurd h (by simp)
        next =>
          intro h
          exact absurd h (by simp)
      · intro h
        exact absurd ⟨ivB, dataB, tagB, iv, data, tag, heq, hiv, hdata, htag⟩ h
    case _ hne =>
      constructor
      · intro _
        rintro ⟨p1, p2, p3, b1, b2, b3, hsp, h1, h2, h3⟩
        rw [heq] at hsp
        injection hsp with e1 hsp
        injection hsp with e2 hsp
        injection hsp with e3 _
        subst e1; subst e2; subst e3
        exact hne b1 b2 b3 h1 h2 h3
      · intro _; rfl
  case _ hnomatch =>
    constructor
    · intro _
      rintro ⟨p1, p2, p3, b1, b2, b3, hsp, _, _, _⟩
      exact hnomatch p1 p2 p3 hsp
    · intro _; rfl

/-- Witness for the amended C4: a one-part payload is `MalformedCiphertext`
by the characterization. -/
theorem malformed_iff_not_three_b64_parts_witness :
    decryptMessage gcmAead ['a'] ['b'] = Except.error DecryptError.malformedCiphertext := by
  rw [malformed_iff_not_three_b64_parts]
  rintro ⟨p1, p2, p3, b1, b2, b3, hsp, -, -, -⟩
  rw [show splitDot ['a'] = [['a']] from rfl] at hsp
  simp at hsp

/-! ## Claim C5 -/

theorem flipByte_lt {l : List Nat} (hl : ∀ b ∈ l, b < 256) {j bit : Nat}
    (hj : j < l.length) (hbit : bit < 8) : ∀ b ∈ flipByte l j bit, b < 256 := by
  intro b hb
  rcases List.mem_or_eq_of_mem_set hb with h | h
  · exact hl b h
  · subst h
    have h1 : l.getD j 0 < 2 ^ 8 := by
      rw [List.getD_eq_getElem?_getD]
      cases hg : l[j]? with
      | none => simp
      | some x =>
          simp only [Option.getD_some]
          exact hl x (List.getElem?_mem hg)
    have h2 : 2 ^ bit < 2 ^ 8 := Nat.pow_lt_pow_right (by omega) hbit
    exact Nat.xor_lt_two_pow h1 h2

theorem flipByte_ne {l : List Nat} {j bit : Nat} (hj : j < l.length) :
    flipByte l j bit ≠ l := by
  intro h
  have hq := congrArg (fun t : List Nat => t[j]?) h
  simp only [flipByte] at hq
  rw [List.getElem?_set_self hj] at hq
  cases hx : l[j]? with
  | none =>
      rw [hx] at hq
      cases hq
  | some a =>
      rw [hx] at hq
      have hgd : l.getD j 0 = a := by
        rw [List.getD_eq_getElem?_getD, hx]
        rfl
      rw [hgd] at hq
      have hxx : a ^^^ 2 ^ bit = a := Option.some.inj hq
      have hzero : 2 ^ bit = 0 := by
        have h2 := congrArg (fun x => a ^^^ x) hxx
        simp only [Nat.xor_self] at h2
        rwa [← Nat.xor_assoc, Nat.xor_self, Nat.zero_xor] at h2
      have hp : 0 < 2 ^ bit := Nat.pos_pow_of_pos bit (by omega)
      omega

theorem flipByte_length (l : List Nat) (j bit : Nat) :
    (flipByte l j bit).length = l.length := List.length_set l j _

/-- C5: for any ciphertext produced by `encryptMessage` under an
identifier, flipping any single bit of any byte of the body or the tag
makes `decryptMessage` fail with `AuthenticationFailure`, and presenting
the intact ciphertext under a different identifier also fails with
`AuthenticationFailure` — in every case no plaintext (altered or partial)
is returned.  The cryptographic content — that the AEAD rejects every
(body, tag) pair other than the unique genuine one under the key that
encrypted, and rejects everything under a key that never encrypted — is
exactly the hypotheses `hrej` and `hrej2`: the spec's one-encryption-per-key
idealization, discharged at a concrete single-use instance by the
witness.  The theorem itself verifies the wrapper: the flipped bytes pass
unmangled through base64 and the dot-joined wire format to the cipher,
the cipher's rejection is surfaced as `AuthenticationFailure`, and the
error carries no plaintext. -/
theorem tamper_and_wrong_key_rejected (A : Aead) {digits digits2 : List Char}
    (h40 : digits.length = 40) (hhex : digits.all isHexDigitChar = true)
    (h40b : digits2.length = 40) (hhexb : digits2.all isHexDigitChar = true)
    (iv m body tag key key2 : List Nat)
    (hiv : ∀ b ∈ iv, b < 256) (hbody : ∀ b ∈ body, b < 256) (htagb : ∀ b ∈ tag, b < 256)
    (hkey : deriveKeyFromAddress ('0' :: 'x' :: digits) = some key)
    (hkey2 : deriveKeyFromAddress ('0' :: 'x' :: digits2) = some key2)
    (henc : A.enc key iv m = (body, tag))
    (htag16 : tag.length = 16)
    (hrej : ∀ b t, (b, t) ≠ (body, tag) → A.dec key iv b t = none)
    (hrej2 : ∀ b t, A.dec key2 iv b t = none) :
    (∀ j bit, j < body.length → bit < 8 →
      decryptMessage A (bytesToBase64 iv ++
          '.' :: (bytesToBase64 (flipByte body j bit) ++ '.' :: bytesToBase64 tag))
        ('0' :: 'x' :: digits) = Except.error DecryptError.authenticationFailure) ∧
    (∀ j bit, j < tag.length → bit < 8 →
      decryptMessage A (bytesToBase64 iv ++
          '.' :: (bytesToBase64 body ++ '.' :: bytesToBase64 (flipByte tag j bit)))
        ('0' :: 'x' :: digits) = Except.error DecryptError.authenticationFailure) ∧
    decryptMessage A
        (bytesToBase64 iv ++ '.' :: (bytesToBase64 body ++ '.' :: bytesToBase64 tag))
        ('0' :: 'x' :: digits2) = Except.error DecryptError.authenticationFailure := by
  refine ⟨?_, ?_, ?_⟩
  · intro j bit hj hbit
    rw [decryptMessage_of_parts A _ hiv (flipByte_lt hbody hj hbit) htagb htag16 hkey]
    rw [hrej (flipByte body j bit) tag
      (fun hpair => flipByte_ne hj (congrArg Prod.fst hpair))]
  · intro j bit hj hbit
    rw [decryptMessage_of_parts A _ hiv hbody (flipByte_lt htagb hj hbit)
      (by rw [flipByte_length, htag16]) hkey]
    rw [hrej body (flipByte tag j bit)
      (fun hpair => flipByte_ne hj (congrArg Prod.snd hpair))]
  · rw [decryptMessage_of_parts A _ hiv hbody htagb htag16 hkey2]
    rw [hrej2 body tag]

set_option maxRecDepth 20000 in
/-- Witness for C5: the hypotheses are discharged at a single-use AEAD
instance over a concrete key, iv and message; flipping the lowest bit of
the first body byte or of the first tag byte, or decrypting under a
different address, each yields `AuthenticationFailure`. -/
theorem tamper_and_wrong_key_rejected_witness :
    (decryptMessage
        (oneShotAead (sha256 (hexToBytes (List.replicate 40 '0'))) [9, 9]
          [72, 105])
        (bytesToBase64 [9, 9] ++ '.' ::
          (bytesToBase64 (flipByte
            (xorKeystream (sha256 (hexToBytes (List.replicate 40 '0'))) [9, 9] 0 [72, 105])
            0 0) ++
           '.' :: bytesToBase64 (gcmTag (sha256 (hexToBytes (List.replicate 40 '0'))) [9, 9]
            (xorKeystream (sha256 (hexToBytes (List.replicate 40 '0'))) [9, 9] 0 [72, 105]))))
        ('0' :: 'x' :: List.replicate 40 '0') =
      Except.error DecryptError.authenticationFailure) ∧
    (decryptMessage
        (oneShotAead (sha256 (hexToBytes (List.replicate 40 '0'))) [9, 9]
          [72, 105])
        (bytesToBase64 [9, 9] ++ '.' ::
          (bytesToBase64
            (xorKeystream (sha256 (hexToBytes (List.replicate 40 '0'))) [9, 9] 0 [72, 105]) ++
           '.' :: bytesToBase64 (flipByte
            (gcmTag (sha256 (hexToBytes (List.replicate 40 '0'))) [9, 9]
              (xorKeystream (sha256 (hexToBytes (List.replicate 40 '0'))) [9, 9] 0 [72, 105]))
            0 0)))
        ('0' :: 'x' :: List.replicate 40 '0') =
      Except.error DecryptError.authenticationFailure) ∧
    (decryptMessage
        (oneShotAead (sha256 (hexToBytes (List.replicate 40 '0'))) [9, 9]
          [72, 105])
        (bytesToBase64 [9, 9] ++ '.' ::
          (bytesToBase64
            (xorKeystream (sha256 (hexToBytes (List.replicate 40 '0'))) [9, 9] 0 [72, 105]) ++
           '.' :: bytesToBase64 (gcmTag (sha256 (hexToBytes (List.replicate 40 '0'))) [9, 9]
            (xorKeystream (sha256 (hexToBytes (List.replicate 40 '0'))) [9, 9] 0 [72, 105]))))
        ('0' :: 'x' :: List.replicate 40 '1') =
      Except.error DecryptError.authenticationFailure) := by
  have h := @tamper_and_wrong_key_rejected
    (oneShotAead (sha256 (hexToBytes (List.replicate 40 '0'))) [9, 9] [72, 105])
    (List.replicate 40 '0') (List.replicate 40 '1')
    (by decide) (by decide) (by decide) (by decide)
    [9, 9] [72, 105]
    (xorKeystream (sha256 (hexToBytes (List.replicate 40 '0'))) [9, 9] 0 [72, 105])
    (gcmTag (sha256 (hexToBytes (List.replicate 40 '0'))) [9, 9]
      (xorKeystream (sha256 (hexToBytes (List.replicate 40 '0'))) [9, 9] 0 [72, 105]))
    (sha256 (hexToBytes (List.replicate 40 '0')))
    (sha256 (hexToBytes (List.replicate 40 '1')))
    (by decide)
    (xorKeystream_lt (by decide) _ _ 0)
    (gcmTag_lt _ _ _)
    (deriveKeyFromAddress_eq (by decide) (by decide))
    (deriveKeyFromAddress_eq (by decide) (by decide))
    rfl
    (gcmTag_length _ _ _)
    (by
      intro b t hne
      simp only [oneShotAead]
      rw [if_neg]
      rintro ⟨-, -, h3⟩
      exact hne (h3.trans rfl))
    (by
      intro b t
      simp only [oneShotAead]
      rw [if_neg]
      rintro ⟨hk, -, -⟩
      exact absurd hk (by decide))
  exact ⟨h.1 0 0 (by rw [xorKeystream_length]; decide) (by decide),
    h.2.1 0 0 (by rw [gcmTag_length]; decide) (by decide),
    h.2.2⟩

/-! ## Lemmas: inversion of a successful `sendMessage` -/

theorem sendMessage_ok_inv {st : ChainState} {ca s r : Nat} {em : List Char} {v t : Nat}
    {st' : ChainState} {idx : Nat}
    (h : sendMessage st ca s r em v true t = Except.ok (st', idx)) :
    r ≠ 0 ∧ em ≠ [] ∧ idx = (st.messages r).length ∧
    st'.messages r = st.messages r ++ [⟨s, em, st.store.nextHandle, t⟩] ∧
    (∀ r', r' ≠ r → st'.messages r' = st.messages r') ∧
    st'.store.nextHandle = st.store.nextHandle + 1 ∧
    st'.store.vals st.store.nextHandle = some v ∧
    st'.store.aclUser st.store.nextHandle = [r] := by
  by_cases h1 : r = 0
  · rw [sendMessage, if_pos h1] at h
    simp at h
  by_cases h2 : em = []
  · rw [sendMessage, if_neg h1, if_pos h2] at h
    simp at h
  obtain ⟨st0, hok, hmsg, hoth, hnext, hvals, haclU, haclC⟩ :=
    sendMessage_ok_spec st ca s r em v t h1 h2
  have he := hok.symm.trans h
  have hpair : (st0, (st.messages r).length) = (st', idx) := by
    injection he
  have hst : st0 = st' := congrArg Prod.fst hpair
  have hidx : (st.messages r).length = idx := congrArg Prod.snd hpair
  subst hst
  exact ⟨h1, h2, hidx.symm, hmsg, hoth, hnext, hvals, haclU⟩

/-! ## Claim C6 -/

/-- C6: `sendMessage` fails with `InvalidRecipient` whenever the recipient
is the zero address and with `EmptyCiphertext` whenever the ciphertext
string is empty; both checks run before any mutation, so the reverted
transaction leaves the entire chain state — every recipient's log and
count — unchanged (`sendMessageTx` returns the untouched pre-state and no
index). -/
theorem append_validation_rejects_before_mutation (st : ChainState)
    (ca s recipient : Nat) (em : List Char) (v : Nat) (pf : Bool) (t : Nat) :
    (recipient = 0 →
      sendMessage st ca s recipient em v pf t = Except.error SendError.invalidRecipient ∧
      sendMessageTx st ca s recipient em v pf t = (st, none)) ∧
    (recipient ≠ 0 → em = [] →
      sendMessage st ca s recipient em v pf t = Except.error SendError.emptyCiphertext ∧
      sendMessageTx st ca s recipient em v pf t = (st, none)) := by
  constructor
  · intro h0
    have h : sendMessage st ca s recipient em v pf t =
        Except.error SendError.invalidRecipient := by
      rw [sendMessage, if_pos h0]
    exact ⟨h, by rw [sendMessageTx, h]⟩
  · intro h0 hem
    have h : sendMessage st ca s recipient em v pf t =
        Except.error SendError.emptyCiphertext := by
      rw [sendMessage, if_neg h0, if_pos hem]
    exact ⟨h, by rw [sendMessageTx, h]⟩

/-- Witness for C6: both rejections fire at concrete inputs and leave the
initial state untouched. -/
theorem append_validation_rejects_before_mutation_witness :
    (sendMessage initialChainState 77 5 0 ['a'] 9 true 3 =
        Except.error SendError.invalidRecipient ∧
      sendMessageTx initialChainState 77 5 0 ['a'] 9 true 3 = (initialChainState, none)) ∧
    (sendMessage initialChainState 77 5 1 [] 9 true 3 =
        Except.error SendError.emptyCiphertext ∧
      sendMessageTx initialChainState 77 5 1 [] 9 true 3 = (initialChainState, none)) :=
  ⟨(append_validation_rejects_before_mutation initialChainState 77 5 0 ['a'] 9 true 3).1 rfl,
   (append_validation_rejects_before_mutation initialChainState 77 5 1 [] 9 true 3).2
     (by decide) rfl⟩

/-! ## Claim C7 -/

/-- C7: starting from the empty deployment state, after `n` sequential
successful `sendMessage` calls to one recipient the count equals `n`, and
`getMessageAt` at each `k < n` returns exactly the `k`-th appended record
(sender, ciphertext, sequentially assigned key handle, timestamp),
unchanged by the later appends; the count of a recipient that never
received a message is `0`; and every successful call is assigned the index
equal to the log length before the call (so indices are 0, 1, 2, … in
append order and never reused), grows the recipient's log by exactly one
record at the end (leaving every earlier record and every other
recipient's log untouched). -/
theorem ledger_monotonic_append (ca recipient : Nat) (hr : recipient ≠ 0)
    (cs : List SendCall) (hmsgs : ∀ c ∈ cs, c.msg ≠ []) :
    (∃ st', runSends ca recipient initialChainState cs = some st' ∧
      getMessageCount st' recipient = cs.length ∧
      (∀ k, k < cs.length →
        getMessageAt st' recipient k =
          (cs.get? k).map fun c => ⟨c.sender, c.msg, k, c.ts⟩)) ∧
    (∀ r, getMessageCount initialChainState r = 0) ∧
    (∀ (st st' : ChainState) (idx s : Nat) (em : List Char) (v t : Nat),
      sendMessage st ca s recipient em v true t = Except.ok (st', idx) →
      idx = getMessageCount st recipient ∧
      getMessageCount st' recipient = getMessageCount st recipient + 1 ∧
      (∀ r', r' ≠ recipient → st'.messages r' = st.messages r') ∧
      (∀ k, k < getMessageCount st recipient →
        getMessageAt st' recipient k = getMessageAt st recipient k)) := by
  refine ⟨?_, fun r => rfl, ?_⟩
  · obtain ⟨st', hrun, hmsg, _, _⟩ := runSends_spec ca recipient hr cs initialChainState hmsgs
    refine ⟨st', hrun, ?_, ?_⟩
    · rw [getMessageCount, hmsg]
      simp [initialChainState, expectedRecords_length]
    · intro k hk
      rw [getMessageAt, hmsg]
      have : initialChainState.messages recipient = [] := rfl
      rw [this, List.nil_append, List.get?_eq_getElem?] at *
      rw [← List.get?_eq_getElem?, expectedRecords_get]
      simp [initialChainState]
  · intro st st' idx s em v t h
    obtain ⟨-, -, hidx, hmsg, hoth, -, -, -⟩ := sendMessage_ok_inv h
    refine ⟨hidx, ?_, hoth, ?_⟩
    · rw [getMessageCount, getMessageCount, hmsg]
      simp
    · intro k hk
      rw [getMessageAt, getMessageAt, hmsg]
      rw [List.get?_eq_getElem?, List.get?_eq_getElem?,
        List.getElem?_append_left hk]

/-- Witness for C7: two sends to recipient 1 from the empty state give
count 2, the records at indices 0 and 1 with handles 0 and 1, and the
per-call index/effect facts at a concrete successful call. -/
theorem ledger_monotonic_append_witness :
    (∃ st', runSends 7 1 initialChainState
        [⟨2, ['a'], 5, 100⟩, ⟨3, ['b'], 6, 200⟩] = some st' ∧
      getMessageCount st' 1 = 2 ∧
      (∀ k, k < 2 →
        getMessageAt st' 1 k =
          (([⟨2, ['a'], 5, 100⟩, ⟨3, ['b'], 6, 200⟩] : List SendCall).get? k).map
            fun c => ⟨c.sender, c.msg, k, c.ts⟩)) ∧
    (∀ r, getMessageCount initialChainState r = 0) ∧
    (∀ (st st' : ChainState) (idx s : Nat) (em : List Char) (v t : Nat),
      sendMessage st 7 s 1 em v true t = Except.ok (st', idx) →
      idx = getMessageCount st 1 ∧
      getMessageCount st' 1 = getMessageCount st 1 + 1 ∧
      (∀ r', r' ≠ 1 → st'.messages r' = st.messages r') ∧
      (∀ k, k < getMessageCount st 1 →
        getMessageAt st' 1 k = getMessageAt st 1 k)) :=
  ledger_monotonic_append 7 1 (by decide)
    [⟨2, ['a'], 5, 100⟩, ⟨3, ['b'], 6, 200⟩] (by decide)

/-! ## Claim C8 -/

/-- C8: after a successful `sendMessage` stores the encrypted key under a
fresh handle, the confidential key store releases its plaintext only to
the owning recipient: `resolve` succeeds exactly for a signed, unexpired
proof naming the handle whose principal equals the recipient
(`FHE.allow(key, recipient)` made the recipient the only user principal on
the handle), and fails (`Unauthorized`, modelled as `none`) for every
proof whose principal is any other party — even though the handle value
itself is public. -/
theorem keystore_owner_only {st : ChainState} {ca s recipient : Nat} {em : List Char}
    {v t : Nat} {st' : ChainState} {idx : Nat}
    (h : sendMessage st ca s recipient em v true t = Except.ok (st', idx)) :
    (∀ (p : AuthProof) (now : Nat), p.principal ≠ recipient →
      resolve st' st.store.nextHandle p now = none) ∧
    (∀ (p : AuthProof) (now : Nat), p.sigOk = true →
      st.store.nextHandle ∈ p.handles →
      p.startTime ≤ now → now ≤ p.startTime + p.durationDays * 86400 →
      p.principal = recipient →
      resolve st' st.store.nextHandle p now = some v) := by
  obtain ⟨-, -, -, -, -, -, hvals, haclU⟩ := sendMessage_ok_inv h
  constructor
  · intro p now hp
    rw [resolve, hvals]
    dsimp only
    rw [haclU, if_neg]
    rintro ⟨-, -, -, -, hmem⟩
    simp at hmem
    exact hp hmem
  · intro p now hsig hmem h1 h2 hpr
    rw [resolve, hvals]
    dsimp only
    rw [haclU, if_pos]
    exact ⟨hsig, hmem, h1, h2, by rw [hpr]; simp⟩

/-- Witness for C8: after a concrete send to recipient 1, a proof naming
principal 2 is refused and a valid, unexpired proof of principal 1
recovers the committed value 42. -/
theorem keystore_owner_only_witness :
    resolve (sendMessageTx initialChainState 7 5 1 ['a'] 42 true 9).1 0
      ⟨2, [0], 50, 10, true⟩ 60 = none ∧
    resolve (sendMessageTx initialChainState 7 5 1 ['a'] 42 true 9).1 0
      ⟨1, [0], 50, 10, true⟩ 60 = some 42 := by
  have h := @keystore_owner_only initialChainState 7 5 1 ['a'] 42 9
    (sendMessageTx initialChainState 7 5 1 ['a'] 42 true 9).1 0 rfl
  exact ⟨h.1 ⟨2, [0], 50, 10, true⟩ 60 (by decide),
    h.2 ⟨1, [0], 50, 10, true⟩ 60 rfl (by decide) (by decide) (by decide) rfl⟩

/-! ## Claim C9 -/

/-- C9: each decrypt attempt of the inbox builds its authorization request
from that attempt's freshly generated ephemeral keypair and nothing else:
the EIP-712 message names exactly the target handle paired with the
contract, its validity window starts at the current time
(`Math.floor(Date.now() / 1000)`), its duration is the constant 10 days
(which is at most 10 days), it carries the attempt's ephemeral public key,
and it is signed by the recipient's long-term identity key
(`signer.signTypedData`).  The embedding is a pure function of one
attempt's inputs (keypair, signer, handle, time), exactly mirroring the
source, where the keypair, the EIP-712 message and the signature are local
constants of a single `handleDecrypt` invocation that go out of scope when
it returns — no session state survives across attempts. -/
theorem decrypt_session_proof_shape (kp : Keypair) (sign : Eip712Message → Nat)
    (userAddress contractAddr encryptedKey now : Nat) :
    (handleDecryptRequest kp sign userAddress contractAddr encryptedKey now).startTimeStamp
        = now ∧
    (handleDecryptRequest kp sign userAddress contractAddr encryptedKey now).durationDays
        = 10 ∧
    (handleDecryptRequest kp sign userAddress contractAddr encryptedKey now).durationDays
        ≤ 10 ∧
    (handleDecryptRequest kp sign userAddress contractAddr encryptedKey now).pairs
        = [⟨encryptedKey, contractAddr⟩] ∧
    (handleDecryptRequest kp sign userAddress contractAddr encryptedKey now).publicKey
        = kp.publicKey ∧
    (handleDecryptRequest kp sign userAddress contractAddr encryptedKey now).privateKey
        = kp.privateKey ∧
    (handleDecryptRequest kp sign userAddress contractAddr encryptedKey now).signature
        = sign ⟨kp.publicKey, [contractAddr], now, 10⟩ ∧
    (handleDecryptRequest kp sign userAddress contractAddr encryptedKey now).contractAddresses
        = [contractAddr] :=
  ⟨rfl, rfl, Nat.le_refl 10, rfl, rfl, rfl, rfl, rfl⟩

/-! ## Claim C10 -/

theorem padded_hex_spec (v : Nat) (hv : v < 16 ^ 40) :
    (List.replicate (40 - (natToHexStr v).length) '0' ++ natToHexStr v).length = 40 ∧
    (List.replicate (40 - (natToHexStr v).length) '0' ++ natToHexStr v).all
      isHexDigitChar = true ∧
    digitsVal (List.replicate (40 - (natToHexStr v).length) '0' ++ natToHexStr v) = v := by
  have hlen := @length_natToHexStr_le v 40 (by omega) hv
  refine ⟨?_, ?_, ?_⟩
  · simp only [List.length_append, List.length_replicate]
    omega
  · rw [List.all_append, Bool.and_eq_true]
    constructor
    · rw [List.all_eq_true]
      intro c hc
      rw [List.eq_of_mem_replicate hc]
      decide
    · rw [List.all_eq_true]
      intro c hc
      exact natToHexStr_isHex v c hc
  · rw [digitsVal_pad, digitsVal_natToHexStr]

theorem normalizeNat_spec (v : Nat) (hv : v < 16 ^ 40) :
    normalizeDecryptedAddressNat v =
      some ('0' :: 'x' ::
        (List.replicate (40 - (natToHexStr v).length) '0' ++ natToHexStr v).map
          toLowerHex) := by
  obtain ⟨hlen, hhex, -⟩ := padded_hex_spec v hv
  unfold normalizeDecryptedAddressNat
  rw [ethGetAddress_eq hlen hhex]

/-- C10: `normalizeDecryptedAddress` maps every decrypted key value back
to the address it denotes.  For a bigint `v < 2^160` the hex expansion is
left-padded with zeros to exactly 40 digits before normalization, so the
output's digit string has length 40 and denotes exactly `v` — identifiers
whose address has leading zero bytes round-trip correctly — and composing
with `deriveKeyFromAddress` yields the same envelope key as the original
ephemeral address.  For a string, `"0x"` is prepended exactly when the
string does not already start with it. -/
theorem normalize_decrypted_address_roundtrip :
    (∀ v : Nat, v < 2 ^ 160 →
      ∃ out, normalizeDecryptedAddressNat v = some out ∧
        (out.drop 2).length = 40 ∧ digitsVal (out.drop 2) = v) ∧
    (∀ digits : List Char, digits.length = 40 → digits.all isHexDigitChar = true →
      ∃ out, normalizeDecryptedAddressNat (digitsVal digits) = some out ∧
        deriveKeyFromAddress out = deriveKeyFromAddress ('0' :: 'x' :: digits)) ∧
    (∀ rest : List Char, normalizeDecryptedAddressStr ('0' :: 'x' :: rest) =
      ethGetAddress ('0' :: 'x' :: rest)) ∧
    (∀ s : List Char, s.take 2 ≠ ['0', 'x'] →
      normalizeDecryptedAddressStr s = ethGetAddress ('0' :: 'x' :: s)) := by
  have hpow : (16 : Nat) ^ 40 = 2 ^ 160 := by norm_num
  refine ⟨?_, ?_, fun rest => rfl, ?_⟩
  · intro v hv
    rw [← hpow] at hv
    obtain ⟨hlen, hhex, hval⟩ := padded_hex_spec v hv
    refine ⟨_, normalizeNat_spec v hv, ?_, ?_⟩
    · simp only [List.drop_succ_cons, List.drop_zero, List.length_map]
      exact hlen
    · simp only [List.drop_succ_cons, List.drop_zero]
      rw [digitsVal_map_toLowerHex, hval]
  · intro digits h40 hhexd
    have hv : digitsVal digits < 16 ^ 40 := by
      have := digitsVal_lt digits
      rw [h40] at this
      exact this
    obtain ⟨hlen, hhex, hval⟩ := padded_hex_spec (digitsVal digits) hv
    set padded := List.replicate (40 - (natToHexStr (digitsVal digits)).length) '0' ++
      natToHexStr (digitsVal digits) with hpadded
    refine ⟨_, normalizeNat_spec (digitsVal digits) hv, ?_⟩
    have hlplen : (padded.map toLowerHex).length = 40 := by
      rw [List.length_map]; exact hlen
    have hlphex : (padded.map toLowerHex).all isHexDigitChar = true := by
      rw [List.all_eq_true]
      intro c hc
      rw [List.mem_map] at hc
      obtain ⟨d, hd, rfl⟩ := hc
      exact isHexDigitChar_toLowerHex (List.all_eq_true.mp hhex d hd)
    rw [deriveKeyFromAddress_eq hlplen hlphex, deriveKeyFromAddress_eq h40 hhexd]
    have hmap : (padded.map toLowerHex).map hexVal = digits.map hexVal := by
      apply map_hexVal_eq_of_digitsVal_eq
      · rw [hlplen, h40]
      · rw [digitsVal_map_toLowerHex, hval]
    have hbytes : hexToBytes (padded.map toLowerHex) = hexToBytes digits := by
      unfold hexToBytes
      rw [hlplen, h40]
      norm_num
      exact hexPairsToBytes_congr hmap
    rw [hbytes]
  · intro s hs
    unfold normalizeDecryptedAddressStr
    split
    next c rest =>
      exfalso
      exact hs rfl
    next hne =>
      rfl

/-- Witness for C10: the value 15 (an address of 39 leading zero hex
digits) normalizes to a 40-digit string denoting 15, the round-trip
through `deriveKeyFromAddress` agrees with the original address, the
string branch keeps an existing `0x` prefix, and prepends one to a bare
digit string. -/
theorem normalize_decrypted_address_roundtrip_witness :
    (∃ out, normalizeDecryptedAddressNat 15 = some out ∧
      (out.drop 2).length = 40 ∧ digitsVal (out.drop 2) = 15) ∧
    (∃ out, normalizeDecryptedAddressNat
        (digitsVal (List.replicate 39 '0' ++ ['F'])) = some out ∧
      deriveKeyFromAddress out =
        deriveKeyFromAddress ('0' :: 'x' :: (List.replicate 39 '0' ++ ['F']))) ∧
    normalizeDecryptedAddressStr ('0' :: 'x' :: List.replicate 40 '2') =
      ethGetAddress ('0' :: 'x' :: List.replicate 40 '2') ∧
    normalizeDecryptedAddressStr (List.replicate 40 '2') =
      ethGetAddress ('0' :: 'x' :: List.replicate 40 '2') := by
  have h := normalize_decrypted_address_roundtrip
  exact ⟨h.1 15 (by norm_num),
    h.2.1 (List.replicate 39 '0' ++ ['F']) (by decide) (by decide),
    h.2.2.1 (List.replicate 40 '2'),
    h.2.2.2 (List.replicate 40 '2') (by decide)⟩

end NullComm
